import Mathlib

/-!
Verification of the TaskAssist offline-first synchronization core.

This file gives a shallow embedding of the sync/merge/storage/crypto code
(`src/services/syncService.ts`, `src/services/storageService.ts`,
`src/services/cryptoService.ts`, `src/App.tsx`) and proves the testable
properties stated in the specification against it.

Modelling conventions:
* A generic synchronized record (`task`, `note`, ...) is `Rec`: the merge
  engine only ever reads `id` and `updatedAt`, every other field is
  collapsed into an opaque `payload`.
* A JavaScript `Map` keyed by record id is an insertion-ordered association
  list `List (String × Rec)`; `Map.set` replaces in place (keeping the
  original position) or appends.
* A JavaScript object used as a string-keyed dictionary (the settings
  record) is `List (String × α)`; the spread `\x7b...l, ...c\x7d` is `objSpread`.
* JS timestamps are `Nat` (milliseconds since epoch).  The defensive
  `x.updatedAt || 0` coercion in the source is the identity on a `Nat`
  timestamp (`0 || 0 = 0`), so `Rec.updatedAt` is compared directly.
-/

namespace TaskAssist

/-- A generic synchronized record.  Mirrors the entity shapes of
`src/types.ts` (every synced entity carries a string `id` and a numeric
`updatedAt`); all remaining fields are collapsed into `payload`, which the
merge engine never inspects. -/
structure Rec where
  id : String
  updatedAt : Nat
  payload : Nat
deriving DecidableEq, Repr

/-- `Map.get` on an insertion-ordered association list. -/
def mapGet (m : List (String × Rec)) (k : String) : Option Rec :=
  (m.find? (fun p => p.1 == k)).map (fun p => p.2)

/-- `Map.set` on an insertion-ordered association list: if the key is
present, the value is replaced in place (insertion position kept, exactly
as a JS `Map`); otherwise the pair is appended. -/
def mapSet (m : List (String × Rec)) (k : String) (v : Rec) : List (String × Rec) :=
  if m.any (fun p => p.1 == k) then
    m.map (fun p => if p.1 == k then (k, v) else p)
  else m ++ [(k, v)]

namespace SyncService

/-- One step of the cloud pass of `SyncService.mergeEntities`
(src/services/syncService.ts lines 17-29): insert a cloud item whose id is
absent, otherwise replace the stored item only when the cloud item's
`updatedAt` is strictly greater ("Last Updated Wins", ties keep local). -/
def mergeStep (m : List (String × Rec)) (c : Rec) : List (String × Rec) :=
  match mapGet m c.id with
  | none => mapSet m c.id c
  | some l => if l.updatedAt < c.updatedAt then mapSet m c.id c else m

/-- `SyncService.mergeEntities` (src/services/syncService.ts lines 12-33):
seed a map with every local item, run the cloud pass, return the map's
values in insertion order (`Array.from(mergedMap.values())`). -/
def mergeEntities (loc cloud : List Rec) : List Rec :=
  let seeded := loc.foldl (fun m item => mapSet m item.id item) []
  let merged := cloud.foldl mergeStep seeded
  merged.map (fun p => p.2)

end SyncService

/-- Object lookup on a string-keyed JS object modelled as an association
list (first binding wins, as JS objects have unique keys). -/
def objGet {α : Type} (o : List (String × α)) (k : String) : Option α :=
  (o.find? (fun p => p.1 == k)).map (fun p => p.2)

/-- The JS object spread `\x7b...l, ...c\x7d`: the keys of `l` in order, each
overridden by `c`'s value when `c` has the key, followed by the keys of `c`
that `l` lacks. -/
def objSpread {α : Type} (l c : List (String × α)) : List (String × α) :=
  l.map (fun p => match objGet c p.1 with
    | some v => (p.1, v)
    | none => p)
  ++ c.filter (fun p => (objGet l p.1).isNone)

/-- The application snapshot (`AppState` of `src/types.ts`).  The six
record collections the merge engine touches are lists of `Rec`; fields the
sync core never inspects (`boards`, `globalEvents`, `user`) are kept with
opaque element types; `settings` is a string-keyed object with opaque
(`Nat`) values. -/
structure AppState where
  tasks : List Rec
  notes : List Rec
  goals : List Rec
  automations : List Rec
  templates : List Rec
  memory : List Rec
  boards : List Nat
  activeBoardId : Option String
  globalEvents : List Nat
  user : Option Nat
  settings : List (String × Nat)
  isLoading : Bool
  lastSynced : Option Nat
deriving DecidableEq, Repr

namespace SyncService

/-- `SyncService.mergeStates` (src/services/syncService.ts lines 35-49):
spread of `local` with the six collections pairwise merged, settings merged
shallowly with cloud keys overriding, and `lastSynced := Date.now()`
(`now` is passed explicitly here). -/
def mergeStates (loc cloud : AppState) (now : Nat) : AppState :=
  { loc with
    tasks := mergeEntities loc.tasks cloud.tasks
    notes := mergeEntities loc.notes cloud.notes
    goals := mergeEntities loc.goals cloud.goals
    automations := mergeEntities loc.automations cloud.automations
    templates := mergeEntities loc.templates cloud.templates
    memory := mergeEntities loc.memory cloud.memory
    settings := objSpread loc.settings cloud.settings
    lastSynced := some now }

/-- `SyncService.merge`, the public entry point, delegates to
`mergeStates`. -/
def merge (loc cloud : AppState) (now : Nat) : AppState :=
  mergeStates loc cloud now

end SyncService

/-! ### Association-list map lemmas -/

/-- Key-wellformedness of the merge map: every stored value's `id` is its
key (the source always calls `mergedMap.set(item.id, item)`). -/
def WFMap (m : List (String × Rec)) : Prop := ∀ p ∈ m, p.2.id = p.1

theorem mapGet_nil (i : String) : mapGet [] i = none := rfl

theorem mapGet_cons_pos {p : String × Rec} {t : List (String × Rec)} {i : String}
    (h : p.1 = i) : mapGet (p :: t) i = some p.2 := by
  unfold mapGet
  rw [List.find?_cons_of_pos _ (by simp [h])]
  rfl

theorem mapGet_cons_neg {p : String × Rec} {t : List (String × Rec)} {i : String}
    (h : p.1 ≠ i) : mapGet (p :: t) i = mapGet t i := by
  unfold mapGet
  rw [List.find?_cons_of_neg _ (by simp [h])]

theorem mapGet_append (m₁ m₂ : List (String × Rec)) (i : String) :
    mapGet (m₁ ++ m₂) i =
      match mapGet m₁ i with
      | some v => some v
      | none => mapGet m₂ i := by
  unfold mapGet
  rw [List.find?_append]
  cases h : List.find? (fun p => p.1 == i) m₁ <;> simp [Option.or]

theorem any_key_eq_false {m : List (String × Rec)} {k : String}
    (h : k ∉ m.map Prod.fst) : m.any (fun p => p.1 == k) = false := by
  simp only [List.any_eq_false]
  intro p hp
  simp only [beq_iff_eq]
  intro hk
  exact h (hk ▸ List.mem_map_of_mem Prod.fst hp)

theorem mapSet_pos {m : List (String × Rec)} {k : String} {v : Rec}
    (h : m.any (fun p => p.1 == k) = true) :
    mapSet m k v = m.map (fun p => if p.1 == k then (k, v) else p) := by
  simp [mapSet, h]

theorem mapSet_neg {m : List (String × Rec)} {k : String} {v : Rec}
    (h : m.any (fun p => p.1 == k) = false) :
    mapSet m k v = m ++ [(k, v)] := by
  simp [mapSet, h]

theorem mapSet_of_fresh {m : List (String × Rec)} {k : String} {v : Rec}
    (h : k ∉ m.map Prod.fst) : mapSet m k v = m ++ [(k, v)] :=
  mapSet_neg (any_key_eq_false h)

theorem mapGet_map_replace_ne {t : List (String × Rec)} {k i : String} {v : Rec}
    (h : k ≠ i) :
    mapGet (t.map (fun p => if p.1 == k then (k, v) else p)) i = mapGet t i := by
  induction t with
  | nil => rfl
  | cons p t ih =>
      simp only [List.map_cons]
      by_cases hp : p.1 = k
      · rw [if_pos (by simp [hp]), mapGet_cons_neg (show (k, v).1 ≠ i from h),
          mapGet_cons_neg (show p.1 ≠ i from hp ▸ h)]
        exact ih
      · rw [if_neg (by simp [hp])]
        by_cases hpi : p.1 = i
        · rw [mapGet_cons_pos hpi, mapGet_cons_pos hpi]
        · rw [mapGet_cons_neg hpi, mapGet_cons_neg hpi]
          exact ih

theorem mapGet_map_replace_self {t : List (String × Rec)} {k : String} {v : Rec}
    (h : t.any (fun p => p.1 == k) = true) :
    mapGet (t.map (fun p => if p.1 == k then (k, v) else p)) k = some v := by
  induction t with
  | nil => simp at h
  | cons p t ih =>
      simp only [List.map_cons]
      by_cases hp : p.1 = k
      · rw [if_pos (by simp [hp]), mapGet_cons_pos rfl]
      · rw [if_neg (by simp [hp]), mapGet_cons_neg (show p.1 ≠ k from hp)]
        apply ih
        rcases List.any_eq_true.1 h with ⟨q, hq, hqk⟩
        rcases List.mem_cons.1 hq with rfl | hq'
        · exact absurd (by simpa using hqk) hp
        · exact List.any_eq_true.2 ⟨q, hq', hqk⟩

theorem mapGet_eq_none_of_any_false {m : List (String × Rec)} {k : String}
    (h : m.any (fun p => p.1 == k) = false) : mapGet m k = none := by
  unfold mapGet
  rw [List.find?_eq_none.2 (by simpa only [List.any_eq_false] using h)]
  rfl

theorem mapGet_mapSet_self {m : List (String × Rec)} {k : String} {v : Rec} :
    mapGet (mapSet m k v) k = some v := by
  cases hany : m.any (fun p => p.1 == k) with
  | true => rw [mapSet_pos hany]; exact mapGet_map_replace_self hany
  | false =>
      rw [mapSet_neg hany, mapGet_append, mapGet_eq_none_of_any_false hany]
      exact mapGet_cons_pos rfl

theorem mapGet_mapSet_ne {m : List (String × Rec)} {k i : String} {v : Rec}
    (h : k ≠ i) : mapGet (mapSet m k v) i = mapGet m i := by
  cases hany : m.any (fun p => p.1 == k) with
  | true => rw [mapSet_pos hany]; exact mapGet_map_replace_ne h
  | false =>
      rw [mapSet_neg hany, mapGet_append]
      cases hm : mapGet m i with
      | some v => rfl
      | none => rw [mapGet_cons_neg (show (k, v).1 ≠ i from h)]; rfl

theorem WFMap_append {m₁ m₂ : List (String × Rec)}
    (h₁ : WFMap m₁) (h₂ : WFMap m₂) : WFMap (m₁ ++ m₂) := by
  intro p hp
  rcases List.mem_append.1 hp with h | h
  · exact h₁ p h
  · exact h₂ p h

theorem WFMap_mapSet {m : List (String × Rec)} {k : String} {v : Rec}
    (hm : WFMap m) (hv : v.id = k) : WFMap (mapSet m k v) := by
  cases hany : m.any (fun p => p.1 == k) with
  | true =>
      rw [mapSet_pos hany]
      intro p hp
      rcases List.mem_map.1 hp with ⟨q, hq, rfl⟩
      by_cases hq1 : q.1 = k
      · simp [hq1, hv]
      · simpa [hq1] using hm q hq
  | false =>
      rw [mapSet_neg hany]
      refine WFMap_append hm ?_
      intro p hp
      simp only [List.mem_singleton] at hp
      subst hp
      exact hv

/-- The merged list's lookup-by-id agrees with the map lookup whenever the
map is key-wellformed. -/
theorem find?_values {m : List (String × Rec)} {i : String} (hwf : WFMap m) :
    (m.map (fun p => p.2)).find? (fun r => r.id == i) = mapGet m i := by
  induction m with
  | nil => rfl
  | cons p t ih =>
      have hp : p.2.id = p.1 := hwf p (List.mem_cons_self p t)
      have ht : WFMap t := fun q hq => hwf q (List.mem_cons_of_mem p hq)
      simp only [List.map_cons]
      by_cases hpi : p.1 = i
      · rw [mapGet_cons_pos hpi, List.find?_cons_of_pos _ (by simp [hp, hpi])]
      · rw [mapGet_cons_neg hpi, List.find?_cons_of_neg _ (by simp [hp, hpi])]
        exact ih ht

/-! ### Seeding-pass lemmas -/

theorem foldl_mapSet_fresh (loc : List Rec) :
    ∀ m : List (String × Rec), (loc.map Rec.id).Nodup →
      (∀ r ∈ loc, r.id ∉ m.map Prod.fst) →
      loc.foldl (fun m item => mapSet m item.id item) m
        = m ++ loc.map (fun r => (r.id, r)) := by
  induction loc with
  | nil => intro m _ _; simp
  | cons r t ih =>
      intro m hnd hfresh
      have hr : r.id ∉ m.map Prod.fst := hfresh r (List.mem_cons_self r t)
      have hstep : mapSet m r.id r = m ++ [(r.id, r)] := mapSet_of_fresh hr
      simp only [List.foldl_cons, hstep]
      have hnd' : (t.map Rec.id).Nodup := (List.nodup_cons.1 (by simpa using hnd)).2
      have hfresh' : ∀ x ∈ t, x.id ∉ (m ++ [(r.id, r)]).map Prod.fst := by
        intro x hx
        simp only [List.map_append, List.mem_append, List.map_cons, List.map_nil,
          List.mem_singleton, not_or]
        refine ⟨hfresh x (List.mem_cons_of_mem r hx), ?_⟩
        intro hxr
        have : r.id ∈ t.map Rec.id := hxr ▸ List.mem_map_of_mem Rec.id hx
        exact (List.nodup_cons.1 (by simpa using hnd)).1 this
      rw [ih (m ++ [(r.id, r)]) hnd' hfresh']
      simp

theorem seed_eq (loc : List Rec) (hnd : (loc.map Rec.id).Nodup) :
    loc.foldl (fun m item => mapSet m item.id item) []
      = loc.map (fun r => (r.id, r)) := by
  simpa using foldl_mapSet_fresh loc [] hnd (by simp)

theorem mapGet_pairs {loc : List Rec} {r : Rec}
    (hnd : (loc.map Rec.id).Nodup) (hr : r ∈ loc) :
    mapGet (loc.map (fun r => (r.id, r))) r.id = some r := by
  induction loc with
  | nil => cases hr
  | cons a t ih =>
      by_cases ha : a.id = r.id
      · have : r = a := by
          rcases List.mem_cons.1 hr with h | h
          · exact h
          · exfalso
            have : r.id ∈ t.map Rec.id := List.mem_map_of_mem Rec.id h
            exact (List.nodup_cons.1 (by simpa using hnd)).1 (ha ▸ this)
        subst this
        simp [mapGet, List.find?_cons]
      · have hrt : r ∈ t := by
          rcases List.mem_cons.1 hr with h | h
          · exact absurd (h ▸ rfl) ha
          · exact h
        have hnd' : (t.map Rec.id).Nodup := (List.nodup_cons.1 (by simpa using hnd)).2
        simp [mapGet, List.find?_cons, ha] at ih ⊢
        exact ih hnd' hrt

theorem WFMap_pairs (loc : List Rec) : WFMap (loc.map (fun r => (r.id, r))) := by
  intro p hp
  rcases List.mem_map.1 hp with ⟨r, _, rfl⟩
  rfl

/-! ### Cloud-pass lemmas -/

namespace SyncService

theorem mergeStep_get_ne {m : List (String × Rec)} {c : Rec} {i : String}
    (h : c.id ≠ i) : mapGet (mergeStep m c) i = mapGet m i := by
  unfold mergeStep
  cases mapGet m c.id with
  | none => exact mapGet_mapSet_ne h
  | some l =>
      dsimp only
      split
      · exact mapGet_mapSet_ne h
      · rfl

theorem WFMap_mergeStep {m : List (String × Rec)} {c : Rec}
    (hm : WFMap m) : WFMap (mergeStep m c) := by
  unfold mergeStep
  cases mapGet m c.id with
  | none => exact WFMap_mapSet hm rfl
  | some l =>
      dsimp only
      split
      · exact WFMap_mapSet hm rfl
      · exact hm

theorem foldl_mergeStep_get_of_ne (cloud : List Rec) :
    ∀ m : List (String × Rec), ∀ i : String, (∀ c ∈ cloud, c.id ≠ i) →
      mapGet (cloud.foldl mergeStep m) i = mapGet m i := by
  induction cloud with
  | nil => intro m i _; rfl
  | cons c t ih =>
      intro m i h
      simp only [List.foldl_cons]
      rw [ih (mergeStep m c) i (fun x hx => h x (List.mem_cons_of_mem c hx))]
      exact mergeStep_get_ne (h c (List.mem_cons_self c t))

/-- Lookup after the cloud pass, at an id present on both sides: the stored
value is replaced exactly when the cloud record's `updatedAt` is strictly
greater. -/
theorem foldl_mergeStep_get_conflict (cloud : List Rec) :
    ∀ m : List (String × Rec), ∀ i : String, ∀ v cr : Rec,
      (cloud.map Rec.id).Nodup → mapGet m i = some v → cr ∈ cloud → cr.id = i →
      mapGet (cloud.foldl mergeStep m) i
        = some (if v.updatedAt < cr.updatedAt then cr else v) := by
  induction cloud with
  | nil => intro m i v cr _ _ hcr _; cases hcr
  | cons c t ih =>
      intro m i v cr hnd hm hcr hcri
      have hnd2 : (c.id :: t.map Rec.id).Nodup := by rw [List.map_cons] at hnd; exact hnd
      have hhead : c.id ∉ t.map Rec.id := (List.nodup_cons.1 hnd2).1
      have hnd' : (t.map Rec.id).Nodup := (List.nodup_cons.1 hnd2).2
      by_cases hci : c.id = i
      · have hceq : cr = c := by
          rcases List.mem_cons.1 hcr with h | h
          · exact h
          · exact absurd (by rw [hci, ← hcri]; exact List.mem_map_of_mem Rec.id h) hhead
        subst hceq
        have hstep : mapGet (mergeStep m cr) i
            = some (if v.updatedAt < cr.updatedAt then cr else v) := by
          unfold mergeStep
          rw [hcri, hm]
          dsimp only
          split
          · exact mapGet_mapSet_self
          · exact hm
        have hrest : ∀ x ∈ t, x.id ≠ i := by
          intro x hx hxi
          exact hhead (by rw [hcri, ← hxi]; exact List.mem_map_of_mem Rec.id hx)
        simp only [List.foldl_cons]
        rw [foldl_mergeStep_get_of_ne t (mergeStep m cr) i hrest, hstep]
      · have hcrt : cr ∈ t := by
          rcases List.mem_cons.1 hcr with h | h
          · exact absurd (h ▸ hcri) hci
          · exact h
        simp only [List.foldl_cons]
        exact ih (mergeStep m c) i v cr hnd'
          (by rw [mergeStep_get_ne hci]; exact hm) hcrt hcri

theorem WFMap_foldl_mergeStep (cloud : List Rec) :
    ∀ m : List (String × Rec), WFMap m → WFMap (cloud.foldl mergeStep m) := by
  induction cloud with
  | nil => intro m hm; exact hm
  | cons c t ih =>
      intro m hm
      simp only [List.foldl_cons]
      exact ih (mergeStep m c) (WFMap_mergeStep hm)

theorem mergeEntities_eq (loc cloud : List Rec) :
    mergeEntities loc cloud
      = (cloud.foldl mergeStep
          (loc.foldl (fun m item => mapSet m item.id item) [])).map (fun p => p.2) := rfl

end SyncService

theorem any_eq_false_of_mapGet_none {m : List (String × Rec)} {k : String}
    (h : mapGet m k = none) : m.any (fun p => p.1 == k) = false := by
  unfold mapGet at h
  rw [Option.map_eq_none'] at h
  simp only [List.any_eq_false]
  exact List.find?_eq_none.1 h

/-- C1: for a record id present on both sides of `mergeEntities`, the
merged collection holds the cloud record exactly when its `updatedAt` is
strictly greater than the local one's; otherwise (ties included) the local
record is kept. -/
theorem mergeEntities_recency (loc cloud : List Rec) (i : String) (lr cr : Rec)
    (hlnd : (loc.map Rec.id).Nodup) (hcnd : (cloud.map Rec.id).Nodup)
    (hlr : lr ∈ loc) (hcr : cr ∈ cloud) (hli : lr.id = i) (hci : cr.id = i) :
    (SyncService.mergeEntities loc cloud).find? (fun r => r.id == i)
      = some (if lr.updatedAt < cr.updatedAt then cr else lr) := by
  subst hli
  rw [SyncService.mergeEntities_eq, seed_eq loc hlnd,
    find?_values (SyncService.WFMap_foldl_mergeStep cloud _ (WFMap_pairs loc))]
  exact SyncService.foldl_mergeStep_get_conflict cloud (loc.map (fun r => (r.id, r)))
    lr.id lr cr hcnd (mapGet_pairs hlnd hlr) hcr hci

theorem mergeEntities_recency_witness :
    (SyncService.mergeEntities [⟨"t1", 100, 1⟩] [⟨"t1", 200, 2⟩]).find?
        (fun r => r.id == "t1")
      = some ⟨"t1", 200, 2⟩ := by
  have h := mergeEntities_recency [⟨"t1", 100, 1⟩] [⟨"t1", 200, 2⟩] "t1"
    ⟨"t1", 100, 1⟩ ⟨"t1", 200, 2⟩ (by simp) (by simp) (by simp) (by simp) rfl rfl
  rwa [if_pos (by norm_num)] at h

namespace SyncService

/-- Full characterization of the cloud pass when every id collision stores
the identical record: the map keeps its seeded entries and appends the
cloud records whose ids are fresh. -/
theorem foldl_mergeStep_append (cloud : List Rec) :
    ∀ m : List (String × Rec), WFMap m → (cloud.map Rec.id).Nodup →
      (∀ b ∈ cloud, ∀ p ∈ m, p.1 = b.id → p.2 = b) →
      cloud.foldl mergeStep m
        = m ++ (cloud.filter
            (fun b => !(m.any (fun p => p.1 == b.id)))).map (fun r => (r.id, r)) := by
  induction cloud with
  | nil => intro m _ _ _; simp
  | cons b t ih =>
      intro m hwf hnd hmem
      have hnd2 : (b.id :: t.map Rec.id).Nodup := by rw [List.map_cons] at hnd; exact hnd
      have hhead : b.id ∉ t.map Rec.id := (List.nodup_cons.1 hnd2).1
      have hnd' : (t.map Rec.id).Nodup := (List.nodup_cons.1 hnd2).2
      simp only [List.foldl_cons]
      cases hany : m.any (fun p => p.1 == b.id) with
      | true =>
          have hstep : mergeStep m b = m := by
            unfold mergeStep
            cases hg : mapGet m b.id with
            | none => exact absurd hany (by simp [any_eq_false_of_mapGet_none hg])
            | some q =>
                have hq : q = b := by
                  unfold mapGet at hg
                  rcases Option.map_eq_some'.1 hg with ⟨p, hp, hp2⟩
                  exact hp2 ▸ hmem b (List.mem_cons_self b t) p
                    (List.mem_of_find?_eq_some hp)
                    (by simpa using List.find?_some hp)
                subst hq
                simp
          rw [hstep, ih m hwf hnd'
            (fun x hx p hp => hmem x (List.mem_cons_of_mem b hx) p hp)]
          have hfb : (!(m.any (fun p => p.1 == b.id))) = false := by rw [hany]; rfl
          rw [List.filter_cons_of_neg (by simp [hfb])]
      | false =>
          have hg : mapGet m b.id = none := mapGet_eq_none_of_any_false hany
          have hstep : mergeStep m b = m ++ [(b.id, b)] := by
            unfold mergeStep
            rw [hg]
            exact mapSet_neg hany
          have hwf' : WFMap (m ++ [(b.id, b)]) := by
            refine WFMap_append hwf ?_
            intro p hp
            simp only [List.mem_singleton] at hp
            subst hp
            rfl
          have hmem' : ∀ x ∈ t, ∀ p ∈ m ++ [(b.id, b)], p.1 = x.id → p.2 = x := by
            intro x hx p hp hpx
            rcases List.mem_append.1 hp with h | h
            · exact hmem x (List.mem_cons_of_mem b hx) p h hpx
            · simp only [List.mem_singleton] at h
              subst h
              have hbx : b.id = x.id := hpx
              exact absurd (by rw [hbx]; exact List.mem_map_of_mem Rec.id hx) hhead
          rw [hstep, ih (m ++ [(b.id, b)]) hwf' hnd' hmem']
          have hfb : (!(m.any (fun p => p.1 == b.id))) = true := by rw [hany]; rfl
          rw [List.filter_cons_of_pos (by simp [hfb])]
          have hfilter :
              t.filter (fun x => !((m ++ [(b.id, b)]).any (fun p => p.1 == x.id)))
                = t.filter (fun x => !(m.any (fun p => p.1 == x.id))) := by
            apply List.filter_congr
            intro x hx
            have hbx : (b.id == x.id) = false := by
              simp only [beq_eq_false_iff_ne, ne_eq]
              intro hbxeq
              exact hhead (hbxeq ▸ List.mem_map_of_mem Rec.id hx)
            simp [List.any_append, hbx]
          rw [hfilter]
          simp

/-- `mergeEntities loc loc = loc` whenever ids are unique within the
collection. -/
theorem mergeEntities_self (loc : List Rec) (hnd : (loc.map Rec.id).Nodup) :
    mergeEntities loc loc = loc := by
  rw [mergeEntities_eq, seed_eq loc hnd]
  rw [foldl_mergeStep_append loc (loc.map (fun r => (r.id, r))) (WFMap_pairs loc) hnd ?hmem]
  case hmem =>
    intro b hb p hp hpb
    rcases List.mem_map.1 hp with ⟨a, ha, rfl⟩
    have : a = b := List.inj_on_of_nodup_map hnd ha hb hpb
    simp [this]
  have hfilter :
      loc.filter (fun b => !((loc.map (fun r => (r.id, r))).any (fun p => p.1 == b.id)))
        = [] := by
    rw [List.filter_eq_nil_iff]
    intro b hb
    have : (loc.map (fun r => (r.id, r))).any (fun p => p.1 == b.id) = true :=
      List.any_eq_true.2 ⟨(b.id, b), List.mem_map_of_mem _ hb, by simp⟩
    simp [this]
  rw [hfilter]
  simp only [List.map_nil, List.append_nil, List.map_map]
  have hcomp : ((fun p : String × Rec => p.2) ∘ fun r : Rec => (r.id, r)) = id := rfl
  rw [hcomp, List.map_id]

/-- When any id shared between the two sides carries the identical record
(the "disjoint edits" situation), the merged collection is exactly the
union of the two sides. -/
theorem mergeEntities_union {l c : List Rec}
    (hl : (l.map Rec.id).Nodup) (hc : (c.map Rec.id).Nodup)
    (hagree : ∀ a ∈ l, ∀ b ∈ c, a.id = b.id → a = b) :
    ∀ r, r ∈ mergeEntities l c ↔ r ∈ l ∨ r ∈ c := by
  intro r
  rw [mergeEntities_eq, seed_eq l hl]
  rw [foldl_mergeStep_append c (l.map (fun x => (x.id, x))) (WFMap_pairs l) hc ?hmem]
  case hmem =>
    intro b hb p hp hpb
    rcases List.mem_map.1 hp with ⟨a, ha, rfl⟩
    have : a = b := hagree a ha b hb hpb
    simp [this]
  simp only [List.map_append, List.map_map, List.mem_append]
  constructor
  · rintro (h | h)
    · left
      simpa using h
    · right
      rcases List.mem_map.1 h with ⟨x, hx, rfl⟩
      exact (List.mem_filter.1 hx).1
  · rintro (h | h)
    · left
      simpa using h
    · by_cases hfresh :
        (l.map (fun x => (x.id, x))).any (fun p => p.1 == r.id) = true
      · left
        rcases List.any_eq_true.1 hfresh with ⟨p, hp, hpk⟩
        rcases List.mem_map.1 hp with ⟨a, ha, rfl⟩
        have : a = r := hagree a ha r h (by simpa using hpk)
        simpa using this ▸ ha
      · right
        refine List.mem_map.2 ⟨r, List.mem_filter.2 ⟨h, ?_⟩, rfl⟩
        simp only [Bool.not_eq_true] at hfresh
        simp [hfresh]

end SyncService

/-! ### Settings-object lemmas -/

theorem objGet_cons_pos {α : Type} {p : String × α} {t : List (String × α)} {k : String}
    (h : p.1 = k) : objGet (p :: t) k = some p.2 := by
  unfold objGet
  rw [List.find?_cons_of_pos _ (by simp [h])]
  rfl

theorem objGet_cons_neg {α : Type} {p : String × α} {t : List (String × α)} {k : String}
    (h : p.1 ≠ k) : objGet (p :: t) k = objGet t k := by
  unfold objGet
  rw [List.find?_cons_of_neg _ (by simp [h])]

theorem objGet_append {α : Type} (o₁ o₂ : List (String × α)) (k : String) :
    objGet (o₁ ++ o₂) k =
      match objGet o₁ k with
      | some v => some v
      | none => objGet o₂ k := by
  unfold objGet
  rw [List.find?_append]
  cases h : List.find? (fun p => p.1 == k) o₁ <;> simp [Option.or]

theorem objGet_map_override {α : Type} (l c : List (String × α)) (k : String) :
    objGet (l.map (fun p => match objGet c p.1 with
      | some v => (p.1, v)
      | none => p)) k
      = match objGet l k with
        | some w => some ((objGet c k).getD w)
        | none => none := by
  induction l with
  | nil => rfl
  | cons p t ih =>
      simp only [List.map_cons]
      by_cases hp : p.1 = k
      · subst hp
        cases hc : objGet c p.1 with
        | some v =>
            rw [objGet_cons_pos (p := (p.1, v)) (t := _) rfl, objGet_cons_pos rfl]
            rfl
        | none =>
            rw [objGet_cons_pos (p := p) (t := _) rfl, objGet_cons_pos rfl]
            rfl
      · have hkey : (match objGet c p.1 with
            | some v => (p.1, v)
            | none => p).1 = p.1 := by
          cases objGet c p.1 <;> rfl
        rw [objGet_cons_neg (by rw [hkey]; exact hp), objGet_cons_neg hp]
        exact ih

theorem objGet_filter_missing {α : Type} (l c : List (String × α)) (k : String) :
    objGet (c.filter (fun p => (objGet l p.1).isNone)) k
      = if (objGet l k).isSome then none else objGet c k := by
  induction c with
  | nil => cases h : objGet l k <;> simp [objGet, h]
  | cons q t ih =>
      by_cases hq : q.1 = k
      · subst hq
        cases hl : objGet l q.1 with
        | some w =>
            rw [List.filter_cons_of_neg (by simp [hl])]
            rw [ih]
            simp [hl]
        | none =>
            rw [List.filter_cons_of_pos (by simp [hl])]
            rw [objGet_cons_pos rfl, objGet_cons_pos rfl]
            simp [hl]
      · cases hl : objGet l q.1 with
        | some w =>
            rw [List.filter_cons_of_neg (by simp [hl])]
            rw [ih, objGet_cons_neg hq]
        | none =>
            rw [List.filter_cons_of_pos (by simp [hl])]
            rw [objGet_cons_neg hq, objGet_cons_neg hq]
            exact ih

/-- Lookup semantics of the JS spread: a key present in `c` gets `c`'s
value, a key absent from `c` keeps `l`'s value. -/
theorem objGet_objSpread {α : Type} (l c : List (String × α)) (k : String) :
    objGet (objSpread l c) k = (objGet c k).or (objGet l k) := by
  unfold objSpread
  rw [objGet_append, objGet_map_override, objGet_filter_missing]
  cases hl : objGet l k <;> cases hc : objGet c k <;> simp [Option.or]

/-! ### Claim theorems on the snapshot merge -/

/-- C6: the merged settings map every key present in the remote settings
object to the remote value and every key absent from it to the local
value (shallow merge, remote priority). -/
theorem merge_settings_shallow (loc cloud : AppState) (now : Nat) (k : String) :
    (∀ v, objGet cloud.settings k = some v →
        objGet (SyncService.merge loc cloud now).settings k = some v) ∧
    (objGet cloud.settings k = none →
        objGet (SyncService.merge loc cloud now).settings k
          = objGet loc.settings k) := by
  have h : objGet (SyncService.merge loc cloud now).settings k
      = (objGet cloud.settings k).or (objGet loc.settings k) :=
    objGet_objSpread loc.settings cloud.settings k
  constructor
  · intro v hv
    rw [h, hv]
    rfl
  · intro hv
    rw [h, hv]
    rfl

/-- C10: the merge leaves `boards`, `globalEvents`, `activeBoardId` and
`user` (and `isLoading`) exactly at the local snapshot's values; no remote
value of these fields reaches the result. -/
theorem merge_frame (loc cloud : AppState) (now : Nat) :
    (SyncService.merge loc cloud now).boards = loc.boards ∧
    (SyncService.merge loc cloud now).globalEvents = loc.globalEvents ∧
    (SyncService.merge loc cloud now).activeBoardId = loc.activeBoardId ∧
    (SyncService.merge loc cloud now).user = loc.user ∧
    (SyncService.merge loc cloud now).isLoading = loc.isLoading :=
  ⟨rfl, rfl, rfl, rfl, rfl⟩

/-- C4: merging a snapshot with itself returns every collection unchanged
(hence equal as an order-independent set of records) and leaves every
settings key at its value; only `lastSynced` is refreshed, which the
collection-contents comparison ignores. -/
theorem merge_idempotent (S : AppState) (now : Nat)
    (h1 : (S.tasks.map Rec.id).Nodup) (h2 : (S.notes.map Rec.id).Nodup)
    (h3 : (S.goals.map Rec.id).Nodup) (h4 : (S.automations.map Rec.id).Nodup)
    (h5 : (S.templates.map Rec.id).Nodup) (h6 : (S.memory.map Rec.id).Nodup) :
    (SyncService.merge S S now).tasks = S.tasks ∧
    (SyncService.merge S S now).notes = S.notes ∧
    (SyncService.merge S S now).goals = S.goals ∧
    (SyncService.merge S S now).automations = S.automations ∧
    (SyncService.merge S S now).templates = S.templates ∧
    (SyncService.merge S S now).memory = S.memory ∧
    ∀ k, objGet (SyncService.merge S S now).settings k = objGet S.settings k := by
  refine ⟨SyncService.mergeEntities_self _ h1, SyncService.mergeEntities_self _ h2,
    SyncService.mergeEntities_self _ h3, SyncService.mergeEntities_self _ h4,
    SyncService.mergeEntities_self _ h5, SyncService.mergeEntities_self _ h6, ?_⟩
  intro k
  have h : objGet (SyncService.merge S S now).settings k
      = (objGet S.settings k).or (objGet S.settings k) :=
    objGet_objSpread S.settings S.settings k
  rw [h]
  cases hk : objGet S.settings k <;> simp [Option.or]

/-- A small concrete snapshot used by the witnesses below. -/
def sampleState : AppState :=
  { tasks := [⟨"t1", 100, 1⟩]
    notes := [⟨"n1", 5, 2⟩]
    goals := []
    automations := []
    templates := []
    memory := []
    boards := [7]
    activeBoardId := some "b"
    globalEvents := []
    user := none
    settings := [("theme", 0)]
    isLoading := false
    lastSynced := some 42 }

theorem merge_idempotent_witness :
    (SyncService.merge sampleState sampleState 999).tasks = sampleState.tasks ∧
    objGet (SyncService.merge sampleState sampleState 999).settings "theme"
      = objGet sampleState.settings "theme" := by
  have h := merge_idempotent sampleState 999 (by decide) (by decide) (by decide)
    (by decide) (by decide) (by decide)
  exact ⟨h.1, h.2.2.2.2.2.2 "theme"⟩

/-- Both sides have unique ids and any id shared between them carries the
identical record: the situation after two devices edit disjoint sets of
record ids starting from a common state. -/
abbrev EntAgree (l c : List Rec) : Prop :=
  (l.map Rec.id).Nodup ∧ (c.map Rec.id).Nodup ∧ ∀ a ∈ l, ∀ b ∈ c, a.id = b.id → a = b

/-- C5: under disjoint edits each merged collection is exactly the union
of the local and the remote records — no record is dropped. -/
theorem merge_disjoint_edits_union (loc cloud : AppState) (now : Nat)
    (h1 : EntAgree loc.tasks cloud.tasks) (h2 : EntAgree loc.notes cloud.notes)
    (h3 : EntAgree loc.goals cloud.goals)
    (h4 : EntAgree loc.automations cloud.automations)
    (h5 : EntAgree loc.templates cloud.templates)
    (h6 : EntAgree loc.memory cloud.memory) :
    (∀ r, r ∈ (SyncService.merge loc cloud now).tasks ↔
        r ∈ loc.tasks ∨ r ∈ cloud.tasks) ∧
    (∀ r, r ∈ (SyncService.merge loc cloud now).notes ↔
        r ∈ loc.notes ∨ r ∈ cloud.notes) ∧
    (∀ r, r ∈ (SyncService.merge loc cloud now).goals ↔
        r ∈ loc.goals ∨ r ∈ cloud.goals) ∧
    (∀ r, r ∈ (SyncService.merge loc cloud now).automations ↔
        r ∈ loc.automations ∨ r ∈ cloud.automations) ∧
    (∀ r, r ∈ (SyncService.merge loc cloud now).templates ↔
        r ∈ loc.templates ∨ r ∈ cloud.templates) ∧
    (∀ r, r ∈ (SyncService.merge loc cloud now).memory ↔
        r ∈ loc.memory ∨ r ∈ cloud.memory) :=
  ⟨SyncService.mergeEntities_union h1.1 h1.2.1 h1.2.2,
   SyncService.mergeEntities_union h2.1 h2.2.1 h2.2.2,
   SyncService.mergeEntities_union h3.1 h3.2.1 h3.2.2,
   SyncService.mergeEntities_union h4.1 h4.2.1 h4.2.2,
   SyncService.mergeEntities_union h5.1 h5.2.1 h5.2.2,
   SyncService.mergeEntities_union h6.1 h6.2.1 h6.2.2⟩

/-- A second concrete snapshot whose record ids are disjoint from
`sampleState`'s. -/
def sampleRemote : AppState :=
  { tasks := [⟨"t2", 50, 3⟩]
    notes := []
    goals := [⟨"g1", 9, 4⟩]
    automations := []
    templates := []
    memory := []
    boards := []
    activeBoardId := none
    globalEvents := []
    user := none
    settings := [("theme", 1)]
    isLoading := false
    lastSynced := none }

theorem merge_disjoint_edits_union_witness :
    (⟨"t2", 50, 3⟩ : Rec) ∈ (SyncService.merge sampleState sampleRemote 999).tasks ↔
      (⟨"t2", 50, 3⟩ : Rec) ∈ sampleState.tasks ∨
      (⟨"t2", 50, 3⟩ : Rec) ∈ sampleRemote.tasks := by
  have h := merge_disjoint_edits_union sampleState sampleRemote 999
    (by decide) (by decide) (by decide) (by decide) (by decide) (by decide)
  exact h.1 ⟨"t2", 50, 3⟩

theorem merge_settings_shallow_witness :
    objGet (SyncService.merge sampleState sampleRemote 999).settings "theme"
      = some 1 := by
  have h := merge_settings_shallow sampleState sampleRemote 999 "theme"
  exact h.1 1 (by decide)

/-! ## Storage service: backups ring buffer and task updates -/

namespace StorageService

/-- A local backup snapshot (`BackupSnapshot` of `src/types.ts`).  The
snapshot payload type is a parameter, mirroring the untyped `data: any`
parameter of `createBackup`. -/
structure BackupSnapshot (δ : Type) where
  id : String
  timestamp : Nat
  label : String
  data : δ
deriving DecidableEq, Repr

/-- Insert into a list sorted by strictly descending timestamp. -/
def insertDesc {δ : Type} (b : BackupSnapshot δ) :
    List (BackupSnapshot δ) → List (BackupSnapshot δ)
  | [] => [b]
  | x :: t => if b.timestamp ≥ x.timestamp then b :: x :: t else x :: insertDesc b t

/-- The `backups.sort((a, b) => b.timestamp - a.timestamp)` call: sort by
descending timestamp.  Insertion sort is used here; on the strictly
increasing timestamps the theorems assume, every correct sort produces the
same (unique) descending order, so the choice of algorithm is immaterial. -/
def sortDesc {δ : Type} (l : List (BackupSnapshot δ)) : List (BackupSnapshot δ) :=
  l.foldr insertDesc []

/-- `StorageService.createBackup` (src/services/storageService.ts lines
226-244): add a backup record with a fresh random id (`newId` stands for
the `crypto.randomUUID()` draw, `now` for `Date.now()`), then, if more
than 5 backups are stored, sort them newest-first and delete everything
after the first 5. -/
def createBackup {δ : Type} (store : List (BackupSnapshot δ)) (data : δ)
    (label : String) (newId : String) (now : Nat) : List (BackupSnapshot δ) :=
  if (store ++ [(⟨newId, now, label, data⟩ : BackupSnapshot δ)]).length > 5 then
    ((sortDesc (store ++ [(⟨newId, now, label, data⟩ : BackupSnapshot δ)])).drop 5).foldl
      (fun s b => s.filter (fun x => x.id != b.id))
      (store ++ [(⟨newId, now, label, data⟩ : BackupSnapshot δ)])
  else store ++ [(⟨newId, now, label, data⟩ : BackupSnapshot δ)]

/-- A sequence of `createBackup` calls against an initially empty backup
store; `ps` lists the `(randomUUID, Date.now())` draw of each call. -/
def runBackups {δ : Type} (ps : List (String × Nat)) (data : δ) (label : String) :
    List (BackupSnapshot δ) :=
  ps.foldl (fun s p => createBackup s data label p.1 p.2) []

end StorageService

/-- The suffix of the `n` most recent elements. -/
def lastN {α : Type} (n : Nat) (l : List α) : List α := l.drop (l.length - n)

namespace StorageService

theorem insertDesc_of_lt {δ : Type} {b : BackupSnapshot δ} :
    ∀ {l : List (BackupSnapshot δ)}, (∀ x ∈ l, b.timestamp < x.timestamp) →
      insertDesc b l = l ++ [b] := by
  intro l
  induction l with
  | nil => intro _; rfl
  | cons x t ih =>
      intro h
      have hx : b.timestamp < x.timestamp := h x (List.mem_cons_self x t)
      rw [insertDesc, if_neg (by omega), ih (fun y hy => h y (List.mem_cons_of_mem x hy))]
      rfl

theorem sortDesc_of_ascending {δ : Type} :
    ∀ {l : List (BackupSnapshot δ)},
      l.Pairwise (fun a b => a.timestamp < b.timestamp) → sortDesc l = l.reverse := by
  intro l
  induction l with
  | nil => intro _; rfl
  | cons a t ih =>
      intro h
      have h1 : ∀ x ∈ t, a.timestamp < x.timestamp := (List.pairwise_cons.1 h).1
      have h2 := (List.pairwise_cons.1 h).2
      show insertDesc a (sortDesc t) = (a :: t).reverse
      rw [ih h2, insertDesc_of_lt (fun x hx => h1 x (List.mem_reverse.1 hx))]
      simp

theorem delete_head {δ : Type} {s0 : BackupSnapshot δ} {t : List (BackupSnapshot δ)}
    (h : ∀ x ∈ t, x.id ≠ s0.id) :
    (s0 :: t).filter (fun x => x.id != s0.id) = t := by
  rw [List.filter_cons_of_neg (by simp)]
  exact List.filter_eq_self.2 (fun x hx => by simp [h x hx])

/-- The record stored for one `(randomUUID, Date.now())` draw. -/
def mkBackup {δ : Type} (data : δ) (label : String) (p : String × Nat) :
    BackupSnapshot δ :=
  ⟨p.1, p.2, label, data⟩

/-- The backup store after any sequence of calls with fresh ids and
strictly increasing clock readings holds exactly the 5 most recent
backups (all of them while fewer than 5 exist). -/
theorem runBackups_eq {δ : Type} (data : δ) (label : String) :
    ∀ ps : List (String × Nat), (ps.map Prod.fst).Nodup →
      ps.Pairwise (fun p q => p.2 < q.2) →
      runBackups ps data label = (lastN 5 ps).map (mkBackup data label) := by
  intro ps
  induction ps using List.reverseRecOn with
  | nil => intro _ _; rfl
  | append_singleton ps q ih =>
      intro hnd hmono
      have hndps : (ps.map Prod.fst).Nodup :=
        List.Nodup.sublist (List.Sublist.map _ (by simp)) hnd
      have hmonops : ps.Pairwise (fun p q => p.2 < q.2) :=
        (List.pairwise_append.1 hmono).1
      have hrun : runBackups (ps ++ [q]) data label
          = createBackup (runBackups ps data label) data label q.1 q.2 := by
        unfold runBackups
        rw [List.foldl_append]
        rfl
      have hq : (⟨q.1, q.2, label, data⟩ : BackupSnapshot δ) = mkBackup data label q := rfl
      rw [hrun, ih hndps hmonops]
      by_cases hlen : ps.length < 5
      · -- fewer than 5 backups exist: no eviction happens
        have hSA : lastN 5 ps = ps := by
          unfold lastN
          rw [show ps.length - 5 = 0 by omega, List.drop_zero]
        have hSB : lastN 5 (ps ++ [q]) = ps ++ [q] := by
          unfold lastN
          rw [show (ps ++ [q]).length - 5 = 0 by
            rw [List.length_append, List.length_singleton]; omega, List.drop_zero]
        rw [hSA, hSB]
        unfold createBackup
        rw [if_neg (by
          simp only [List.length_append, List.length_map, List.length_singleton]
          omega)]
        rw [List.map_append]
        rfl
      · -- at least 5 backups exist: the oldest one is evicted
        have hS5 : (lastN 5 ps).length = 5 := by
          unfold lastN
          rw [List.length_drop]
          omega
        have hSdef : lastN 5 ps = ps.drop (ps.length - 5) := rfl
        -- destructure the oldest element of the current store
        obtain ⟨p0, tps, hcons⟩ :
            ∃ p0 tps, ps.drop (ps.length - 5) = p0 :: tps := by
          cases hd : ps.drop (ps.length - 5) with
          | nil =>
              exfalso
              have := congrArg List.length hd
              rw [← hSdef, hS5] at this
              simp at this
          | cons p0 tps => exact ⟨p0, tps, rfl⟩
        have htps : tps = ps.drop (ps.length - 4) := by
          have h1 : (ps.drop (ps.length - 5)).tail = tps := by rw [hcons]; rfl
          rw [List.tail_drop] at h1
          rw [← h1]
          congr 1
          omega
        have htpslen : tps.length = 4 := by
          have := congrArg List.length hcons
          rw [← hSdef, hS5] at this
          simp at this
          omega
        -- the enlarged store, as a mapped sublist of `ps ++ [q]`
        have hsub : ((p0 :: tps) ++ [q]).Sublist (ps ++ [q]) := by
          rw [← hcons]
          exact List.Sublist.append_right (List.drop_sublist _ _) [q]
        have hndsub : (((p0 :: tps) ++ [q]).map Prod.fst).Nodup :=
          List.Nodup.sublist (List.Sublist.map _ hsub) hnd
        have hmonosub : ((p0 :: tps) ++ [q]).Pairwise (fun p q => p.2 < q.2) :=
          List.Pairwise.sublist hsub hmono
        rw [hSdef, hcons]
        unfold createBackup
        rw [hq]
        have hstore1 : (p0 :: tps).map (mkBackup data label) ++ [mkBackup data label q]
            = ((p0 :: tps) ++ [q]).map (mkBackup data label) := by
          rw [List.map_append]
          rfl
        rw [hstore1]
        rw [if_pos (by
          simp only [List.length_map, List.length_append, List.length_cons,
            List.length_singleton, htpslen]
          omega)]
        have hasc : (((p0 :: tps) ++ [q]).map (mkBackup data label)).Pairwise
            (fun a b => a.timestamp < b.timestamp) := by
          rw [List.pairwise_map]
          exact hmonosub
        rw [sortDesc_of_ascending hasc]
        -- dropping 5 from the reversed 6-element store isolates the oldest
        have hrev : (((p0 :: tps) ++ [q]).map (mkBackup data label)).reverse.drop 5
            = [mkBackup data label p0] := by
          rw [List.cons_append, List.map_cons, List.reverse_cons]
          rw [List.drop_append_of_le_length (by
            rw [List.length_reverse, List.length_map, List.length_append,
              List.length_singleton, htpslen])]
          rw [List.drop_eq_nil_of_le (by
            rw [List.length_reverse, List.length_map, List.length_append,
              List.length_singleton, htpslen])]
          rfl
        rw [hrev]
        simp only [List.foldl_cons, List.foldl_nil]
        -- deleting that id removes exactly the oldest record
        have hdel : ∀ x ∈ (tps ++ [q]).map (mkBackup data label),
            x.id ≠ (mkBackup data label p0).id := by
          intro x hx
          rcases List.mem_map.1 hx with ⟨y, hy, rfl⟩
          have hids : (p0.1 :: (tps ++ [q]).map Prod.fst).Nodup := by
            have h1 : ((p0 :: (tps ++ [q])).map Prod.fst).Nodup := by
              rw [← List.cons_append]
              exact hndsub
            rw [List.map_cons] at h1
            exact h1
          intro hxy
          exact (List.nodup_cons.1 hids).1
            ((show y.1 = p0.1 from hxy) ▸ List.mem_map_of_mem Prod.fst hy)
        rw [List.cons_append, List.map_cons, delete_head hdel]
        -- identify the survivors with the 5 most recent of `ps ++ [q]`
        unfold lastN
        rw [show (ps ++ [q]).length - 5 = ps.length - 4 by
          rw [List.length_append, List.length_singleton]; omega]
        rw [List.drop_append_of_le_length (by omega)]
        rw [List.map_append, ← htps, List.map_append]

end StorageService

/-- C7: creating 7 backups in sequence (fresh random ids, strictly
increasing clock readings) leaves exactly 5 snapshots in the store, namely
the 5 most recently created, and the bound 5 holds after every call along
the way. -/
theorem createBackup_ring_buffer {δ : Type} (data : δ) (label : String)
    (ps : List (String × Nat)) (hlen : ps.length = 7)
    (hnd : (ps.map Prod.fst).Nodup)
    (hmono : ps.Pairwise (fun p q => p.2 < q.2)) :
    (StorageService.runBackups ps data label).length = 5 ∧
    StorageService.runBackups ps data label
      = (ps.drop 2).map (StorageService.mkBackup data label) ∧
    ∀ n, (StorageService.runBackups (ps.take n) data label).length ≤ 5 := by
  have h := StorageService.runBackups_eq data label ps hnd hmono
  have hdrop : lastN 5 ps = ps.drop 2 := by
    unfold lastN
    rw [hlen]
  refine ⟨?_, ?_, ?_⟩
  · rw [h, hdrop, List.length_map, List.length_drop, hlen]
  · rw [h, hdrop]
  · intro n
    have hnd' : ((ps.take n).map Prod.fst).Nodup :=
      List.Nodup.sublist (List.Sublist.map _ (List.take_sublist n ps)) hnd
    have hmono' : (ps.take n).Pairwise (fun p q => p.2 < q.2) :=
      List.Pairwise.sublist (List.take_sublist n ps) hmono
    rw [StorageService.runBackups_eq data label _ hnd' hmono']
    unfold lastN
    rw [List.length_map, List.length_drop]
    omega

theorem createBackup_ring_buffer_witness :
    (StorageService.runBackups
        [("b1", 1), ("b2", 2), ("b3", 3), ("b4", 4), ("b5", 5), ("b6", 6), ("b7", 7)]
        (0 : Nat) "Auto-Backup").length = 5 ∧
    StorageService.runBackups
        [("b1", 1), ("b2", 2), ("b3", 3), ("b4", 4), ("b5", 5), ("b6", 6), ("b7", 7)]
        (0 : Nat) "Auto-Backup"
      = [⟨"b3", 3, "Auto-Backup", 0⟩, ⟨"b4", 4, "Auto-Backup", 0⟩,
         ⟨"b5", 5, "Auto-Backup", 0⟩, ⟨"b6", 6, "Auto-Backup", 0⟩,
         ⟨"b7", 7, "Auto-Backup", 0⟩] := by
  have h := createBackup_ring_buffer (0 : Nat) "Auto-Backup"
    [("b1", 1), ("b2", 2), ("b3", 3), ("b4", 4), ("b5", 5), ("b6", 6), ("b7", 7)]
    (by decide) (by decide) (by decide)
  exact ⟨h.1, h.2.1.trans (by decide)⟩

/-! ## Storage service: task updates -/

/-- The task record (`Task` of `src/types.ts`), restricted to a
representative set of fields; the update path copies fields generically so
the exact selection does not matter. -/
structure Task where
  id : String
  title : String
  status : String
  completed : Bool
  order : Nat
  updatedAt : Nat
deriving DecidableEq, Repr

/-- A `Partial<Task>`: any subset of the mutable fields. -/
structure TaskPatch where
  title : Option String := none
  status : Option String := none
  completed : Option Bool := none
  order : Option Nat := none
  updatedAt : Option Nat := none
deriving DecidableEq, Repr

/-- The object spread `\x7b...task, ...updates\x7d` of `updateTask`. -/
def applyPatch (t : Task) (u : TaskPatch) : Task :=
  { id := t.id
    title := u.title.getD t.title
    status := u.status.getD t.status
    completed := u.completed.getD t.completed
    order := u.order.getD t.order
    updatedAt := u.updatedAt.getD t.updatedAt }

namespace StorageService

/-- IndexedDB `put` on the `tasks` store: replace the record whose key
matches, or insert at the end. -/
def storePut (store : List Task) (t : Task) : List Task :=
  if store.any (fun x => x.id == t.id) then
    store.map (fun x => if x.id == t.id then t else x)
  else store ++ [t]

/-- `StorageService.updateTask` (src/services/storageService.ts lines
118-136), restricted to the IndexedDB store: read the record by id; if it
is absent, reject with "Task not found" and leave the store as is;
otherwise put back the patched record.  The result pairs the
settled promise with the store contents afterwards. -/
def updateTask (store : List Task) (id : String) (updates : TaskPatch) :
    Except String Unit × List Task :=
  match store.find? (fun t => t.id == id) with
  | none => (Except.error "Task not found", store)
  | some t => (Except.ok (), storePut store (applyPatch t updates))

end StorageService

/-- C8: updating a nonexistent task id rejects with the not-found error
and leaves every record of the store unchanged — nothing is created and
nothing is modified. -/
theorem updateTask_miss (store : List Task) (id : String) (updates : TaskPatch)
    (h : ∀ t ∈ store, t.id ≠ id) :
    StorageService.updateTask store id updates
      = (Except.error "Task not found", store) := by
  unfold StorageService.updateTask
  rw [List.find?_eq_none.2 (fun t ht => by simp [h t ht])]

theorem updateTask_miss_witness :
    StorageService.updateTask [⟨"t1", "A", "open", false, 0, 100⟩] "missing" {}
      = (Except.error "Task not found", [⟨"t1", "A", "open", false, 0, 100⟩]) :=
  updateTask_miss [⟨"t1", "A", "open", false, 0, 100⟩] "missing" {} (by decide)

/-! ## Crypto module

`CryptoService` (src/services/cryptoService.ts) composes Web Crypto
primitives: PBKDF2 key derivation from the passphrase and a random
16-byte salt, AES-GCM authenticated encryption under a random 12-byte iv,
and base64 framing of `salt ‖ iv ‖ ciphertext`.  The platform primitives
are abstracted as a `CryptoPrims` record; the theorems take the
primitives' documented contracts (decryption inverts encryption under the
same key, rejects a different key, base64 decodes what it encodes) as
hypotheses and verify the service's composition of them.  Byte, key and
envelope representations are type parameters. -/

/-- The Web Crypto and encoding primitives used by `CryptoService`.
`deriveKey` collapses `getPasswordKey` (a raw key import of the
passphrase) and the PBKDF2 `deriveKey` call, which takes the salt. -/
structure CryptoPrims (β κ E : Type) where
  textEncode : String → List β
  textDecode : List β → String
  deriveKey : String → List β → κ
  aesEnc : κ → List β → List β → List β
  aesDec : κ → List β → List β → Option (List β)
  b64encode : List β → E
  b64decode : E → List β

namespace CryptoService

/-- `CryptoService.encrypt` (src/unnamed/part_012 lines 71-97): derive a
key from the passphrase and the fresh salt, AES-GCM-encrypt the encoded
text under the fresh iv, and base64-encode `salt ‖ iv ‖ ciphertext`.  The
two `getRandomValues` draws are the `salt` and `iv` arguments. -/
def encrypt {β κ E : Type} (P : CryptoPrims β κ E) (text password : String)
    (salt iv : List β) : E :=
  P.b64encode (salt ++ iv ++ P.aesEnc (P.deriveKey password salt) iv (P.textEncode text))

/-- `CryptoService.decrypt` (src/unnamed/part_012 lines 99-122): base64
decode, split at the fixed offsets 16 and 28 (`buffer.slice(0,16)`,
`slice(16,28)`, `slice(28)`), re-derive the key and AES-GCM-decrypt; any
failure is caught and rethrown as the decryption error. -/
def decrypt {β κ E : Type} (P : CryptoPrims β κ E) (env : E) (password : String) :
    Except String String :=
  match P.aesDec (P.deriveKey password ((P.b64decode env).take 16))
      (((P.b64decode env).drop 16).take 12) ((P.b64decode env).drop 28) with
  | some pt => Except.ok (P.textDecode pt)
  | none => Except.error "Decryption failed. Check your password."

end CryptoService

/-- C3: with the documented contracts of the platform primitives,
decrypting an envelope with the passphrase that produced it returns the
plaintext, and decrypting it with any other passphrase (whose derived key
differs) fails with the decryption error instead of returning plaintext. -/
theorem crypto_roundtrip {β κ E : Type} (P : CryptoPrims β κ E) (s p p2 : String)
    (salt iv : List β)
    (hsalt : salt.length = 16) (hiv : iv.length = 12)
    (hb64 : ∀ b, P.b64decode (P.b64encode b) = b)
    (htext : ∀ t, P.textDecode (P.textEncode t) = t)
    (haead : ∀ k n m, P.aesDec k n (P.aesEnc k n m) = some m)
    (hauth : ∀ k k2 n m, k ≠ k2 → P.aesDec k2 n (P.aesEnc k n m) = none)
    (hkdf : p ≠ p2 → P.deriveKey p salt ≠ P.deriveKey p2 salt) :
    CryptoService.decrypt P (CryptoService.encrypt P s p salt iv) p = Except.ok s ∧
    (p ≠ p2 → CryptoService.decrypt P (CryptoService.encrypt P s p salt iv) p2
      = Except.error "Decryption failed. Check your password.") := by
  have hbuf : P.b64decode (CryptoService.encrypt P s p salt iv)
      = salt ++ iv ++ P.aesEnc (P.deriveKey p salt) iv (P.textEncode s) := hb64 _
  have hlen28 : (salt ++ iv).length = 28 := by
    rw [List.length_append, hsalt, hiv]
  have htake16 : (salt ++ iv ++ P.aesEnc (P.deriveKey p salt) iv (P.textEncode s)).take 16
      = salt := by
    rw [List.append_assoc, List.take_left' hsalt]
  have hmid : ((salt ++ iv ++ P.aesEnc (P.deriveKey p salt) iv (P.textEncode s)).drop 16).take 12
      = iv := by
    rw [List.append_assoc, List.drop_left' hsalt, List.take_left' hiv]
  have hdrop28 : (salt ++ iv ++ P.aesEnc (P.deriveKey p salt) iv (P.textEncode s)).drop 28
      = P.aesEnc (P.deriveKey p salt) iv (P.textEncode s) :=
    List.drop_left' hlen28
  constructor
  · unfold CryptoService.decrypt
    rw [hbuf, htake16, hmid, hdrop28, haead]
    dsimp only
    rw [htext]
  · intro hne
    unfold CryptoService.decrypt
    rw [hbuf, htake16, hmid, hdrop28, hauth _ _ _ _ (hkdf hne)]

/-- C9: two encryption calls whose random salt draws (or iv draws) differ
produce different envelopes — the fresh randomness enters the envelope
injectively, so freshly randomized salts/nonces yield distinct
ciphertext envelopes. -/
theorem encrypt_nondeterministic {β κ E : Type} (P : CryptoPrims β κ E) (s p : String)
    (salt1 iv1 salt2 iv2 : List β)
    (hs1 : salt1.length = 16) (hs2 : salt2.length = 16)
    (hi1 : iv1.length = 12) (hi2 : iv2.length = 12)
    (hinj : ∀ b b2, P.b64encode b = P.b64encode b2 → b = b2)
    (hne : salt1 ≠ salt2 ∨ iv1 ≠ iv2) :
    CryptoService.encrypt P s p salt1 iv1 ≠ CryptoService.encrypt P s p salt2 iv2 := by
  intro heq
  have hb := hinj _ _ heq
  have hsalt : salt1 = salt2 := by
    have h16 := congrArg (List.take 16) hb
    rwa [List.append_assoc, List.take_left' hs1, List.append_assoc,
      List.take_left' hs2] at h16
  have hiv : iv1 = iv2 := by
    have h12 := congrArg (fun l => (List.drop 16 l).take 12) hb
    simp only [List.append_assoc] at h12
    rwa [List.drop_left' hs1, List.take_left' hi1, List.drop_left' hs2,
      List.take_left' hi2] at h12
  rcases hne with h | h
  · exact h hsalt
  · exact h hiv

/-- A concrete instantiation of the platform primitives satisfying their
contracts, used by the crypto witnesses: bytes are strings, the key is the
passphrase itself, encryption prefixes the key, and base64 framing is the
identity. -/
def idPrims : CryptoPrims String String (List String) :=
  { textEncode := fun t => [t]
    textDecode := fun l => l.headD ""
    deriveKey := fun password _ => password
    aesEnc := fun k _ m => k :: m
    aesDec := fun k _ c =>
      match c with
      | [] => none
      | k2 :: m => if k2 = k then some m else none
    b64encode := fun b => b
    b64decode := fun b => b }

theorem crypto_roundtrip_witness :
    CryptoService.decrypt idPrims
        (CryptoService.encrypt idPrims "hello" "pw1"
          (List.replicate 16 "s") (List.replicate 12 "n")) "pw1"
      = Except.ok "hello" ∧
    CryptoService.decrypt idPrims
        (CryptoService.encrypt idPrims "hello" "pw1"
          (List.replicate 16 "s") (List.replicate 12 "n")) "pw2"
      = Except.error "Decryption failed. Check your password." := by
  have h := crypto_roundtrip idPrims "hello" "pw1" "pw2"
    (List.replicate 16 "s") (List.replicate 12 "n")
    (by simp) (by simp)
    (fun b => rfl) (fun t => rfl)
    (fun k n m => by simp [idPrims])
    (fun k k2 n m hk => by simp [idPrims, hk])
    (fun _ => by decide)
  exact ⟨h.1, h.2 (by decide)⟩

theorem encrypt_nondeterministic_witness :
    CryptoService.encrypt idPrims "hello" "pw"
        (List.replicate 16 "a") (List.replicate 12 "n")
      ≠ CryptoService.encrypt idPrims "hello" "pw"
        (List.replicate 16 "b") (List.replicate 12 "n") :=
  encrypt_nondeterministic idPrims "hello" "pw"
    (List.replicate 16 "a") (List.replicate 12 "n")
    (List.replicate 16 "b") (List.replicate 12 "n")
    (by simp) (by simp) (by simp) (by simp)
    (fun b b2 h => h) (Or.inl (by decide))

/-! ## Login-time reconciliation (`performInitialSync`, src/App.tsx 259-304)

The model captures the effect of one `performInitialSync` call on the
IndexedDB stores and on the in-memory app store.  `localState` is the
snapshot the caller loaded (its `tasks`/`notes`/`goals` drive the delete
loops), `cloud` is `SyncService.download`'s result (`none` when no remote
data exists).  IndexedDB `add` rejects on a duplicate key, so a conflicting
insert aborts the model (`Option`); `setMemory` is a `put` keyed by the
entry's `key` with `updatedAt := Date.now()`. -/

/-- A copilot-memory record (`CopilotMemory` of `src/types.ts`): `id`
always equals `key`; `value` is opaque. -/
structure MemRec where
  id : String
  key : String
  value : Nat
  updatedAt : Nat
deriving DecidableEq, Repr

/-- The six IndexedDB object stores `performInitialSync` can touch. -/
structure Stores where
  tasks : List Rec
  notes : List Rec
  goals : List Rec
  automations : List Rec
  templates : List Rec
  memory : List MemRec
deriving DecidableEq, Repr

/-- The slice of the loaded local snapshot `performInitialSync` reads. -/
structure LocalSnapshot where
  tasks : List Rec
  notes : List Rec
  goals : List Rec
  lastSynced : Option Nat
deriving DecidableEq, Repr

/-- The downloaded remote snapshot.  `tasks` and `notes` are accessed
unguarded; `goals`, `automations`, `templates`, `memory` and `settings`
are guarded by truthiness checks, hence `Option`. -/
structure CloudData where
  tasks : List Rec
  notes : List Rec
  goals : Option (List Rec)
  automations : Option (List Rec)
  templates : Option (List Rec)
  memory : Option (List MemRec)
  settings : Option (List (String × Nat))
deriving DecidableEq, Repr

/-- The slice of the in-memory app store state that the call can write. -/
structure AppSt where
  tasks : List Rec
  notes : List Rec
  goals : List Rec
  automations : List Rec
  templates : List Rec
  memory : List MemRec
  settings : List (String × Nat)
  lastSynced : Option Nat
deriving DecidableEq, Repr

/-- The `newData.settings || \x7b theme: 'dark' \x7d` fallback; the theme
literal is an opaque settings value. -/
def defaultSettings : List (String × Nat) := [("theme", 0)]

/-- IndexedDB `delete` by key. -/
def sDelete (l : List Rec) (id : String) : List Rec :=
  l.filter (fun r => r.id != id)

/-- Delete every listed record's id from a store. -/
def sDeleteAll (l : List Rec) (rs : List Rec) : List Rec :=
  rs.foldl (fun acc r => sDelete acc r.id) l

/-- IndexedDB `add`: rejects when the key already exists. -/
def sAdd (l : List Rec) (r : Rec) : Option (List Rec) :=
  if l.any (fun x => x.id == r.id) then none else some (l ++ [r])

/-- Add every listed record, aborting on the first key conflict. -/
def sAddAll (l : List Rec) (rs : List Rec) : Option (List Rec) :=
  rs.foldlM sAdd l

/-- `StorageService.setMemory`: a `put` of
`\x7b id: key, key, value, updatedAt: Date.now() \x7d`. -/
def memPut (l : List MemRec) (key : String) (value : Nat) (now : Nat) : List MemRec :=
  if l.any (fun x => x.id == key) then
    l.map (fun x => if x.id == key then ⟨key, key, value, now⟩ else x)
  else l ++ [⟨key, key, value, now⟩]

/-- `setMemory` for every remote memory entry. -/
def memPutAll (l : List MemRec) (ms : List MemRec) (now : Nat) : List MemRec :=
  ms.foldl (fun acc m => memPut acc m.key m.value now) l

namespace App

/-- `performInitialSync` (src/App.tsx lines 259-304).  When remote data
exists and its timestamp exceeds `lastSynced || 0` by more than 60000 ms:
delete the local tasks, notes and goals from their stores, insert the
remote tasks, notes and (if present) goals, insert the remote automations
and templates (no local deletes), `setMemory` every remote memory entry,
and replace the app store's synced fields wholesale.  Otherwise, when the
remote snapshot has a settings object, spread it over the app store's
settings; nothing else happens.

The `if (newData.goals)` / `automations` / `templates` / `memory`
truthiness guards are modelled by inserting `getD []`: a JS array is
always truthy, inserting an empty collection is a no-op, and an absent
field skips the insert — both give the store unchanged. -/
def performInitialSync (stores : Stores) (app : AppSt) (localState : LocalSnapshot)
    (cloud : Option (CloudData × Nat)) (now : Nat) : Option (Stores × AppSt) :=
  match cloud with
  | none => some (stores, app)
  | some (data, cloudTime) =>
    if cloudTime > localState.lastSynced.getD 0 + 60000 then do
      let tasks2 ← sAddAll (sDeleteAll stores.tasks localState.tasks) data.tasks
      let notes2 ← sAddAll (sDeleteAll stores.notes localState.notes) data.notes
      let goals2 ← sAddAll (sDeleteAll stores.goals localState.goals) (data.goals.getD [])
      let autos2 ← sAddAll stores.automations (data.automations.getD [])
      let tmpls2 ← sAddAll stores.templates (data.templates.getD [])
      let mem2 := memPutAll stores.memory (data.memory.getD []) now
      some (⟨tasks2, notes2, goals2, autos2, tmpls2, mem2⟩,
        ⟨data.tasks, data.notes, data.goals.getD [], data.automations.getD [],
         data.templates.getD [], data.memory.getD [],
         data.settings.getD defaultSettings, some now⟩)
    else
      match data.settings with
      | some cs => some (stores, { app with settings := objSpread app.settings cs })
      | none => some (stores, app)

end App

/-! ### Storage-operation lemmas for the reconciliation theorem -/

theorem sDeleteAll_of_covered :
    ∀ (dels store : List Rec), (∀ x ∈ store, x.id ∈ dels.map Rec.id) →
      sDeleteAll store dels = [] := by
  intro dels
  induction dels with
  | nil =>
      intro store h
      cases store with
      | nil => rfl
      | cons a t => exact absurd (h a (List.mem_cons_self a t)) (by simp)
  | cons r rest ih =>
      intro store h
      show sDeleteAll (sDelete store r.id) rest = []
      apply ih
      intro x hx
      have hmem : x ∈ store := List.mem_of_mem_filter hx
      have hne : x.id ≠ r.id := by
        have := List.of_mem_filter hx
        simpa using this
      have := h x hmem
      rw [List.map_cons, List.mem_cons] at this
      rcases this with h1 | h1
      · exact absurd h1 hne
      · exact h1

theorem sDeleteAll_self (l : List Rec) : sDeleteAll l l = [] :=
  sDeleteAll_of_covered l l (fun _x hx => List.mem_map_of_mem Rec.id hx)

theorem sAddAll_fresh :
    ∀ (rs l : List Rec), (rs.map Rec.id).Nodup →
      (∀ x ∈ l, ∀ y ∈ rs, x.id ≠ y.id) → sAddAll l rs = some (l ++ rs) := by
  intro rs
  induction rs with
  | nil => intro l _ _; simp [sAddAll]
  | cons r rest ih =>
      intro l hnd hdisj
      have hnd2 : (r.id :: rest.map Rec.id).Nodup := by
        rw [List.map_cons] at hnd; exact hnd
      have hany : l.any (fun x => x.id == r.id) = false := by
        simp only [List.any_eq_false]
        intro x hx
        simp only [beq_iff_eq]
        exact hdisj x hx r (List.mem_cons_self r rest)
      have hstep : sAdd l r = some (l ++ [r]) := by
        unfold sAdd
        rw [hany]
        rfl
      have hdisj' : ∀ x ∈ l ++ [r], ∀ y ∈ rest, x.id ≠ y.id := by
        intro x hx y hy
        rcases List.mem_append.1 hx with h | h
        · exact hdisj x h y (List.mem_cons_of_mem r hy)
        · simp only [List.mem_singleton] at h
          subst h
          intro hxy
          exact (List.nodup_cons.1 hnd2).1 (hxy ▸ List.mem_map_of_mem Rec.id hy)
      unfold sAddAll
      rw [List.foldlM_cons, hstep]
      show sAddAll (l ++ [r]) rest = some (l ++ r :: rest)
      rw [ih (l ++ [r]) (List.nodup_cons.1 hnd2).2 hdisj', List.append_assoc]
      rfl

theorem sAddAll_nil (rs : List Rec) (hnd : (rs.map Rec.id).Nodup) :
    sAddAll [] rs = some rs := by
  have h := sAddAll_fresh rs [] hnd (by intro x hx; cases hx)
  simpa using h

/-- C2 counterexample: with the 60-second threshold exceeded (remote
timestamp 70000 against `lastSynced = 0`), a local automation record
`a1` survives the login-time reconciliation untouched in its store, even
though the remote snapshot contains no automation at all — the remote
does not replace local entirely. -/
theorem initial_sync_counterexample :
    App.performInitialSync
        ⟨[], [], [], [⟨"a1", 10, 1⟩], [], []⟩
        ⟨[], [], [], [], [], [], [], none⟩
        ⟨[], [], [], some 0⟩
        (some (⟨[], [], none, none, none, none, none⟩, 70000)) 70001
      = some (⟨[], [], [], [⟨"a1", 10, 1⟩], [], []⟩,
          ⟨[], [], [], [], [], [], defaultSettings, some 70001⟩) ∧
    (70000 : Nat) > 0 + 60000 := by
  constructor
  · rfl
  · norm_num

theorem memPutAll_fresh :
    ∀ (ms l : List MemRec) (now : Nat), (ms.map MemRec.key).Nodup →
      (∀ x ∈ l, ∀ y ∈ ms, x.id ≠ y.key) →
      memPutAll l ms now = l ++ ms.map (fun m => ⟨m.key, m.key, m.value, now⟩) := by
  intro ms
  induction ms with
  | nil => intro l now _ _; simp [memPutAll]
  | cons m rest ih =>
      intro l now hnd hdisj
      have hnd2 : (m.key :: rest.map MemRec.key).Nodup := by
        rw [List.map_cons] at hnd; exact hnd
      have hany : l.any (fun x => x.id == m.key) = false := by
        simp only [List.any_eq_false]
        intro x hx
        simp only [beq_iff_eq]
        exact hdisj x hx m (List.mem_cons_self m rest)
      have hstep : memPut l m.key m.value now = l ++ [⟨m.key, m.key, m.value, now⟩] := by
        unfold memPut
        rw [hany]
        rfl
      have hdisj' : ∀ x ∈ l ++ [(⟨m.key, m.key, m.value, now⟩ : MemRec)],
          ∀ y ∈ rest, x.id ≠ y.key := by
        intro x hx y hy
        rcases List.mem_append.1 hx with h | h
        · exact hdisj x h y (List.mem_cons_of_mem m hy)
        · simp only [List.mem_singleton] at h
          subst h
          intro hxy
          exact (List.nodup_cons.1 hnd2).1
            ((show m.key = y.key from hxy) ▸ List.mem_map_of_mem MemRec.key hy)
      show memPutAll (memPut l m.key m.value now) rest now = _
      rw [hstep]
      rw [ih _ now (List.nodup_cons.1 hnd2).2 hdisj']
      rw [List.append_assoc]
      rfl

/-- C2 (amended): at login, when the remote snapshot exists and its
timestamp exceeds `lastSynced` by more than 60000 ms, the stores of
tasks, notes and goals are replaced by the remote's (local records
deleted, remote inserted), but the remote automations and templates are
only inserted — the local automation and template records are NOT
deleted — and remote memory entries are upserted by key without deleting
local entries; the in-memory app state is replaced wholesale.  Within the
threshold, no store record is modified and only the remote settings keys
(when a settings object is present) are spread over the app settings.
The hypotheses say the stores agree with the loaded snapshot and that the
inserts are conflict-free (remote ids unique, and fresh where no delete
precedes the insert). -/
theorem initial_sync_policy (stores : Stores) (app : AppSt)
    (localState : LocalSnapshot) (dt dn : List Rec) (dg da dp : Option (List Rec))
    (dm : Option (List MemRec)) (ds : Option (List (String × Nat)))
    (cloudTime now : Nat)
    (hst : stores.tasks = localState.tasks)
    (hsn : stores.notes = localState.notes)
    (hsg : stores.goals = localState.goals)
    (hndt : (dt.map Rec.id).Nodup)
    (hndn : (dn.map Rec.id).Nodup)
    (hndg : ((dg.getD []).map Rec.id).Nodup)
    (hnda : ((da.getD []).map Rec.id).Nodup)
    (hdisja : ∀ x ∈ stores.automations, ∀ y ∈ da.getD [], x.id ≠ y.id)
    (hndp : ((dp.getD []).map Rec.id).Nodup)
    (hdisjp : ∀ x ∈ stores.templates, ∀ y ∈ dp.getD [], x.id ≠ y.id)
    (hndm : ((dm.getD []).map MemRec.key).Nodup)
    (hdisjm : ∀ x ∈ stores.memory, ∀ y ∈ dm.getD [], x.id ≠ y.key) :
    (cloudTime > localState.lastSynced.getD 0 + 60000 →
      App.performInitialSync stores app localState
          (some (⟨dt, dn, dg, da, dp, dm, ds⟩, cloudTime)) now
        = some (⟨dt, dn, dg.getD [],
            stores.automations ++ da.getD [],
            stores.templates ++ dp.getD [],
            stores.memory ++ (dm.getD []).map
              (fun m => ⟨m.key, m.key, m.value, now⟩)⟩,
          ⟨dt, dn, dg.getD [], da.getD [], dp.getD [], dm.getD [],
           ds.getD defaultSettings, some now⟩)) ∧
    (¬ cloudTime > localState.lastSynced.getD 0 + 60000 →
      App.performInitialSync stores app localState
          (some (⟨dt, dn, dg, da, dp, dm, ds⟩, cloudTime)) now
        = some (stores, { app with settings :=
            match ds with
            | some cs => objSpread app.settings cs
            | none => app.settings })) := by
  constructor
  · intro hcond
    unfold App.performInitialSync
    dsimp only
    rw [if_pos hcond]
    have e1 : sDeleteAll stores.tasks localState.tasks = [] := by
      rw [hst]; exact sDeleteAll_self _
    have e2 : sDeleteAll stores.notes localState.notes = [] := by
      rw [hsn]; exact sDeleteAll_self _
    have e3 : sDeleteAll stores.goals localState.goals = [] := by
      rw [hsg]; exact sDeleteAll_self _
    rw [e1, e2, e3, sAddAll_nil dt hndt, sAddAll_nil dn hndn,
      sAddAll_nil (dg.getD []) hndg,
      sAddAll_fresh (da.getD []) stores.automations hnda hdisja,
      sAddAll_fresh (dp.getD []) stores.templates hndp hdisjp,
      memPutAll_fresh (dm.getD []) stores.memory now hndm hdisjm]
    rfl
  · intro hcond
    unfold App.performInitialSync
    dsimp only
    rw [if_neg hcond]
    cases ds with
    | some cs => rfl
    | none => rfl

theorem initial_sync_policy_witness :
    App.performInitialSync
        ⟨[⟨"t1", 10, 1⟩], [], [], [⟨"a1", 10, 1⟩], [], []⟩
        ⟨[⟨"t1", 10, 1⟩], [], [], [⟨"a1", 10, 1⟩], [], [], [], none⟩
        ⟨[⟨"t1", 10, 1⟩], [], [], some 0⟩
        (some (⟨[⟨"t9", 99, 9⟩], [], none, some [⟨"a2", 20, 2⟩], none, none, none⟩,
          70000)) 70001
      = some (⟨[⟨"t9", 99, 9⟩], [], [], [⟨"a1", 10, 1⟩, ⟨"a2", 20, 2⟩], [], []⟩,
          ⟨[⟨"t9", 99, 9⟩], [], [], [⟨"a2", 20, 2⟩], [], [],
           defaultSettings, some 70001⟩) := by
  have h := initial_sync_policy
    ⟨[⟨"t1", 10, 1⟩], [], [], [⟨"a1", 10, 1⟩], [], []⟩
    ⟨[⟨"t1", 10, 1⟩], [], [], [⟨"a1", 10, 1⟩], [], [], [], none⟩
    ⟨[⟨"t1", 10, 1⟩], [], [], some 0⟩
    [⟨"t9", 99, 9⟩] [] none (some [⟨"a2", 20, 2⟩]) none none none 70000 70001
    rfl rfl rfl (by decide) (by decide) (by decide) (by decide) (by decide)
    (by decide) (by decide) (by decide) (by decide)
  have h1 := h.1 (by norm_num)
  exact h1.trans (by decide)

end TaskAssist
